import Mathlib

/-! # Verification of the `threshold_crypto` library (`src/lib.rs`)

Shallow embedding.  The groups G₁, G₂ and G_T of the BLS12-381 pairing are
cyclic of prime order `r`, so we represent every point by its discrete
logarithm with respect to the fixed generator: an element of the scalar
field `F` (`Fr` in the source).  Under this representation scalar
multiplication `p.mul(k)` is the field multiplication `p * k`, the
generators `G1Affine::one()` / `G2Affine::one()` are `1`, point addition
`add_assign` is `+`, the zero point `C::zero()` is `0`, and the bilinear
pairing `Bls12::pairing` of dlogs `x`, `y` is `x * y` (the dlog of the
result with respect to `e(G₁, G₂)`, a generator of G_T by non-degeneracy).
The representation is a group isomorphism, so equalities and inequalities
of group elements are preserved exactly.

The external primitives (SHA3-256, the deterministic ChaCha expansion of a
digest into group elements or key streams, the OS RNG) are out of scope per
the specification ("treat as external collaborators") and enter as function
parameters.  Byte strings are `List Nat` of values below 256; `u8` xor is
`Nat.xor`, under which bytes are closed, and `u8::count_ones` inspects the
eight bits of the byte. -/

section ThresholdCrypto

variable {F : Type} [Field F] [DecidableEq F]

/-- Modelled from the spec: the error kinds of `error.rs` (not under `src/`),
§7 of the specification: `NotEnoughShares` and `DuplicateEntry` are the two
share-combination errors.  The extra constructor `expectFailed` is not an
error of the library: it models the `.expect("indices are different")`
panic branch inside `interpolate`, so that the embedding is total and
"never panics" can be stated as "never returns `expectFailed`". -/
inductive CryptoError
  | notEnoughShares
  | duplicateEntry
  | expectFailed
  deriving DecidableEq

/-- Modelled from the spec: the `IntoFr` conversion of `into_fr.rs` (not
under `src/`), §9 of the specification: integer-like external indices are
embedded into the scalar field (`x → x.into_fr()`). -/
def into_fr (i : Int) : F := (i : F)

/-- Source `into_fr_plus_1` (src/lib.rs): `Fr::one()` plus the converted index. -/
def into_fr_plus_1 (i : Int) : F := 1 + into_fr i

/-- Source `Field::inverse` of the pairing crate: `None` exactly on zero. -/
def frInverse (x : F) : Option F := if x = 0 then none else some x⁻¹

/-- Source `Bls12::pairing` in the dlog representation: the dlog of `e(x·G₁, y·G₂)`
with respect to the generator `e(G₁, G₂)` of G_T is `x * y`. -/
def pairing (x y : F) : F := x * y

/-- The inner loop of `interpolate` (src/lib.rs): the value at `0` of the
Lagrange polynomial that is `0` at the other data points but `1` at `x`.
It folds over the chosen indices distinct from `x`, multiplying by `x0`
and by the inverse of `denom = x0 - x`; a failing inverse models the
`.expect("indices are different")` panic. -/
def lagrange0 (chosen : List F) (x : F) : Option F :=
  (chosen.filter (fun x0 => x0 != x)).foldlM
    (fun l0 x0 => (frInverse (x0 - x)).map (fun inv => l0 * x0 * inv)) (1 : F)

/-- The pure value computed by `lagrange0` when no inversion fails. -/
def lagrange0Val (chosen : List F) (x : F) : F :=
  (chosen.filter (fun x0 => x0 != x)).foldl (fun l0 x0 => l0 * x0 * (x0 - x)⁻¹) 1

/-- The outer loop of `interpolate` (src/lib.rs): walk the chosen samples,
failing with `DuplicateEntry` on a repeated index, otherwise accumulating
`result += l0 * sample` and remembering the index. -/
def interpolateGo (chosen : List (F × F)) :
    List (F × F) → List F → F → Except CryptoError F
  | [], _, result => .ok result
  | (x, sample) :: rest, indexes, result =>
    if x ∈ indexes then .error .duplicateEntry
    else
      match lagrange0 (chosen.map Prod.fst) x with
      | none => .error .expectFailed
      | some l0 => interpolateGo chosen rest (indexes ++ [x]) (result + l0 * sample)

/-- Source `interpolate` (src/lib.rs): map the indices through `into_fr_plus_1`,
require at least `t` samples, and run the Lagrange loop on the first `t`. -/
def interpolate (t : Nat) (items : List (Int × F)) : Except CryptoError F :=
  let samples := items.map (fun p => (into_fr_plus_1 p.1, p.2))
  if samples.length < t then .error .notEnoughShares
  else interpolateGo (samples.take t) (samples.take t) [] 0

/-- Source `SecretKey::public_key` (src/lib.rs): `G1Affine::one().mul(*self.0)`. -/
def public_key (sk : F) : F := (1 : F) * sk

/-- Source `SecretKey::sign` via `sign_g2` (src/lib.rs): `hash.into().mul(*self.0)`
where `hash = hash_g2(msg)`; the hash-to-G₂ function `HG2` is an external
primitive passed as a parameter. -/
def sk_sign (HG2 : List Nat → F) (sk : F) (msg : List Nat) : F := HG2 msg * sk

/-- Source `PublicKey::verify` via `verify_g2` (src/lib.rs):
`Bls12::pairing(self.0, hash) == Bls12::pairing(G1Affine::one(), sig.0)`. -/
def pk_verify (HG2 : List Nat → F) (pk sig : F) (msg : List Nat) : Bool :=
  pairing pk (HG2 msg) == pairing (1 : F) sig

/-- Source `xor_vec` (src/lib.rs): bytewise xor of the zip of the two slices. -/
def xor_vec (x y : List Nat) : List Nat :=
  (x.zip y).map (fun p => p.1 ^^^ p.2)

/-- Source `hash_bytes` (src/lib.rs): expand a group element into `len` bytes by
seeding a deterministic stream with its SHA3 digest and taking `len` bytes;
the external stream is a parameter `ds`, with `ds g i` the `i`-th byte. -/
def hash_bytes (ds : F → Nat → Nat) (g : F) (len : Nat) : List Nat :=
  (List.range len).map (ds g)

/-- Source `hash_g1_g2` (src/lib.rs): if the message is longer than 64 bytes,
replace it by its SHA3-256 digest; append the compressed encoding of the
`G₁` element and hash to `G₂`.  `sha3`, `hg2` and the compressed-encoding
function `cp` are external primitives passed as parameters. -/
def hash_g1_g2 (sha3 : List Nat → List Nat) (hg2 : List Nat → F)
    (cp : F → List Nat) (g1 : F) (msg : List Nat) : F :=
  let m := if 64 < msg.length then sha3 msg else msg
  hg2 (m ++ cp g1)

/-- Source `Ciphertext` (src/lib.rs): the triple `(u ∈ G₁, v ∈ bytes, w ∈ G₂)`. -/
structure CiphertextM (F : Type) where
  u : F
  v : List Nat
  w : F

/-- Source `Ciphertext::verify` (src/lib.rs):
`Bls12::pairing(G1Affine::one(), *w) == Bls12::pairing(*u, hash_g1_g2(*u, v))`;
the hash `Hgg` is the (externally expanded) `hash_g1_g2`. -/
def CiphertextM.verify (Hgg : F → List Nat → F) (ct : CiphertextM F) : Bool :=
  pairing (1 : F) ct.w == pairing ct.u (Hgg ct.u ct.v)

/-- Source `PublicKey::encrypt` (src/lib.rs) with the OS-sampled scalar `r` made
explicit: `u = G1Affine::one().mul(r)`, `v = xor_vec(hash_bytes(pk·r, |msg|), msg)`,
`w = hash_g1_g2(u, v).mul(r)`. -/
def encrypt (ds : F → Nat → Nat) (Hgg : F → List Nat → F)
    (pk : F) (msg : List Nat) (r : F) : CiphertextM F :=
  let u := (1 : F) * r
  let v := xor_vec (hash_bytes ds (pk * r) msg.length) msg
  ⟨u, v, Hgg u v * r⟩

/-- Source `SecretKey::decrypt` (src/lib.rs): `None` if the ciphertext does not
verify, otherwise xor the key stream of `g = u.mul(sk)` against `v`. -/
def sk_decrypt (ds : F → Nat → Nat) (Hgg : F → List Nat → F)
    (sk : F) (ct : CiphertextM F) : Option (List Nat) :=
  if !(ct.verify Hgg) then none
  else some (xor_vec (hash_bytes ds (ct.u * sk) ct.v.length) ct.v)

/-- Source `SecretKeyShare::decrypt_share_no_verify` (src/lib.rs):
`ct.0.into_affine().mul(*(self.0).0)`. -/
def decrypt_share_no_verify (sk : F) (ct : CiphertextM F) : F := ct.u * sk

/-- Source `SecretKeyShare::decrypt_share` (src/lib.rs): `None` if the ciphertext
does not verify, otherwise the unverified share. -/
def decrypt_share (Hgg : F → List Nat → F) (sk : F) (ct : CiphertextM F) :
    Option F :=
  if !(ct.verify Hgg) then none
  else some (decrypt_share_no_verify sk ct)

/-- Modelled from the spec: `Poly::evaluate` of `poly.rs` (not under
`src/`), §4.1 of the specification: Horner evaluation
`y ← 0; for i from t down to 0: y ← y·x + cᵢ` of the coefficient list
`coeff = [c₀, …, c_t]`. -/
def evalPoly (coeff : List F) (x : F) : F :=
  coeff.foldr (fun c acc => acc * x + c) 0

/-- Source `PublicKeySet` (src/lib.rs): holds a `Commitment`; modelled from the
spec for the commitment representation of `poly.rs` (not under `src/`):
the commitment to `[c₀, …, c_t]` is `[c₀·G₁, …, c_t·G₁]`, whose dlogs are
the coefficients themselves. -/
structure PublicKeySetM (F : Type) where
  commit : List F

/-- Modelled from the spec: `Commitment::degree` of `poly.rs` (not under
`src/`) is the coefficient count minus one; `PublicKeySet::threshold`
(src/lib.rs) returns it. -/
def PublicKeySetM.threshold (p : PublicKeySetM F) : Nat := p.commit.length - 1

/-- Source `PublicKeySet::public_key` (src/lib.rs): `self.commit.coeff[0]`. -/
def PublicKeySetM.public_key (p : PublicKeySetM F) : F := p.commit.getD 0 0

/-- Source `PublicKeySet::combine_signatures` (src/lib.rs): interpolate the
signature shares at threshold `degree + 1`; the `Signature` newtype is the
identity on dlogs. -/
def PublicKeySetM.combine_signatures (p : PublicKeySetM F)
    (shares : List (Int × F)) : Except CryptoError F :=
  interpolate (p.threshold + 1) shares

/-- Source `PublicKeySet::decrypt` (src/lib.rs): interpolate the decryption shares
and, unconditionally, xor the key stream of the result against `ct.1`. -/
def PublicKeySetM.decrypt (ds : F → Nat → Nat) (p : PublicKeySetM F)
    (shares : List (Int × F)) (ct : CiphertextM F) :
    Except CryptoError (List Nat) :=
  (interpolate (p.threshold + 1) shares).map
    (fun g => xor_vec (hash_bytes ds g ct.v.length) ct.v)

/-- Source `SecretKeySet` (src/lib.rs): holds a `Poly`, modelled from the spec as
its coefficient list (poly.rs is not under `src/`). -/
structure SecretKeySetM (F : Type) where
  poly : List F

/-- Source `SecretKeySet::secret_key_share` (src/lib.rs): evaluate the polynomial
at `into_fr_plus_1 i`. -/
def SecretKeySetM.secret_key_share (s : SecretKeySetM F) (i : Int) : F :=
  evalPoly s.poly (into_fr_plus_1 i)

/-- Source `SecretKeySet::public_keys` (src/lib.rs): the commitment of the
polynomial; in dlogs the commitment coefficients are the coefficients. -/
def SecretKeySetM.public_keys (s : SecretKeySetM F) : PublicKeySetM F :=
  ⟨s.poly⟩

/-- Source `SecretKeySet::secret_key` (src/lib.rs, test-only master key):
evaluation at `0`. -/
def SecretKeySetM.secret_key (s : SecretKeySetM F) : F := evalPoly s.poly 0

/-- The coefficient list `[c₀, …, c_t]` of a `Poly` as a Mathlib polynomial.
This is a proof-side bridge (not part of the embedded code, which only ever
evaluates through `evalPoly`), so it may be noncomputable. -/
noncomputable def toPoly (coeff : List F) : Polynomial F :=
  coeff.foldr (fun c q => Polynomial.C c + Polynomial.X * q) 0

/-- The eight bits of a `u8`, least significant first. -/
def bitsOfByte (b : Nat) : List Bool :=
  (List.range 8).map (fun j => Nat.testBit b j)

/-- Source `u8::count_ones`: the number of set bits of the byte. -/
def count_ones (b : Nat) : Nat := (bitsOfByte b).count true

/-- Source `Signature::parity` (src/lib.rs): xor-fold the bytes of the
uncompressed encoding, then test the low bit of the popcount:
`0 != xor_bytes.count_ones() % 2`. -/
def parity (bytes : List Nat) : Bool :=
  decide (0 ≠ count_ones (bytes.foldl Nat.xor 0) % 2)

/-- Xor of a list of bits. -/
def xorBits (bs : List Bool) : Bool := bs.foldr Bool.xor false

/-- All individual bits of a byte string. -/
def allBits (bytes : List Nat) : List Bool := (bytes.map bitsOfByte).flatten

/-- The direct form of the open question in the spec: the parity of all
individual bits of the encoding. -/
def bitParity (bytes : List Nat) : Bool := xorBits (allBits bytes)

/-- Concrete scalar field used to exercise the theorems on explicit
inputs. -/
instance : Fact (Nat.Prime 5) := ⟨by norm_num⟩

end ThresholdCrypto

section InterpolateLemmas

variable {F : Type} [Field F] [DecidableEq F]

theorem lagrange0_fold_some (x : F) :
    ∀ (l : List F), (∀ x0 ∈ l, x0 ≠ x) → ∀ (a : F),
      l.foldlM (fun l0 x0 => (frInverse (x0 - x)).map (fun inv => l0 * x0 * inv)) a
        = some (l.foldl (fun l0 x0 => l0 * x0 * (x0 - x)⁻¹) a)
  | [], _, a => rfl
  | x0 :: l, h, a => by
    have hne : x0 - x ≠ 0 := sub_ne_zero_of_ne (h x0 (by simp))
    simp only [List.foldlM, List.foldl, frInverse, if_neg hne, Option.map_some]
    simpa using lagrange0_fold_some x l (fun y hy => h y (by simp [hy])) _

/-- The inner loop of `interpolate` never hits the panic branch: every
index it inverts differs from `x` by the value filter. -/
theorem lagrange0_eq_some (chosen : List F) (x : F) :
    lagrange0 chosen x = some (lagrange0Val chosen x) := by
  apply lagrange0_fold_some
  intro x0 hx0
  simpa [bne_iff_ne] using List.of_mem_filter hx0

theorem interpolateGo_ok (chosen : List (F × F)) :
    ∀ (rest : List (F × F)) (indexes : List F) (result : F),
      (indexes ++ rest.map Prod.fst).Nodup →
      interpolateGo chosen rest indexes result =
        .ok (result + (rest.map
          (fun p => lagrange0Val (chosen.map Prod.fst) p.1 * p.2)).sum)
  | [], indexes, result, _ => by simp [interpolateGo]
  | (x, s) :: rest, indexes, result, h => by
    have hx : x ∉ indexes := by
      intro hmem
      rcases List.nodup_append.mp h with ⟨-, -, hdisj⟩
      exact hdisj hmem (by simp)
    have h' : ((indexes ++ [x]) ++ rest.map Prod.fst).Nodup := by
      rw [← List.append_cons]
      simpa using h
    simp only [interpolateGo, if_neg hx, lagrange0_eq_some,
      interpolateGo_ok chosen rest (indexes ++ [x]) (result + _) h',
      List.map_cons, List.sum_cons]
    rw [add_assoc]

theorem interpolateGo_dup_iff (chosen : List (F × F)) :
    ∀ (rest : List (F × F)) (indexes : List F) (result : F), indexes.Nodup →
      (interpolateGo chosen rest indexes result = .error .duplicateEntry ↔
        ¬ (indexes ++ rest.map Prod.fst).Nodup)
  | [], indexes, result, h => by simp [interpolateGo, h]
  | (x, s) :: rest, indexes, result, h => by
    by_cases hx : x ∈ indexes
    · have hnd : ¬ (indexes ++ x :: rest.map Prod.fst).Nodup := by
        intro hnd
        rcases List.nodup_append.mp hnd with ⟨-, -, hdisj⟩
        exact hdisj hx (by simp)
      simp [interpolateGo, if_pos hx, List.map_cons, hnd]
    · have h' : (indexes ++ [x]).Nodup := by
        simp [List.Nodup.append, h, hx, List.nodup_append]
      simp only [interpolateGo, if_neg hx, lagrange0_eq_some, List.map_cons]
      rw [interpolateGo_dup_iff chosen rest (indexes ++ [x]) _ h', ← List.append_cons]

theorem interpolateGo_ne_panic (chosen : List (F × F)) :
    ∀ (rest : List (F × F)) (indexes : List F) (result : F),
      interpolateGo chosen rest indexes result ≠ .error .expectFailed
  | [], indexes, result => by simp [interpolateGo]
  | (x, s) :: rest, indexes, result => by
    by_cases hx : x ∈ indexes
    · simp [interpolateGo, if_pos hx]
    · simp only [interpolateGo, if_neg hx, lagrange0_eq_some]
      exact interpolateGo_ne_panic chosen rest _ _

end InterpolateLemmas

section LagrangeAlgebra

variable {F : Type} [Field F] [DecidableEq F]

omit [DecidableEq F] in
theorem foldl_mul_eq_mul_prod (x : F) :
    ∀ (l : List F) (a : F),
      l.foldl (fun l0 x0 => l0 * x0 * (x0 - x)⁻¹) a
        = a * (l.map (fun x0 => x0 * (x0 - x)⁻¹)).prod
  | [], a => by simp
  | x0 :: l, a => by
    rw [List.foldl_cons, foldl_mul_eq_mul_prod x l, List.map_cons, List.prod_cons]
    ring

/-- The value at `0` of the Lagrange basis polynomial computed by the inner
loop, as a `Finset` product over the other chosen indices. -/
theorem lagrange0Val_eq_prod_erase (xs : List F) (hnd : xs.Nodup) (x : F) :
    lagrange0Val xs x = ∏ y ∈ xs.toFinset.erase x, y * (y - x)⁻¹ := by
  have hfil : (xs.filter (fun x0 => x0 != x)).Nodup := hnd.filter _
  have hset : (xs.filter (fun x0 => x0 != x)).toFinset = xs.toFinset.erase x := by
    ext a
    simp [List.mem_filter, bne_iff_ne, Finset.mem_erase, and_comm]
  rw [lagrange0Val, foldl_mul_eq_mul_prod, one_mul,
    ← List.prod_toFinset _ hfil, hset]

open Polynomial in
/-- The classical Lagrange interpolation identity at `0`, with the basis
values in the form the source computes them. -/
theorem key_sum (s : Finset F) (f : F[X])
    (hdeg : f.degree < (s.card : WithBot ℕ)) :
    ∑ x ∈ s, (∏ y ∈ s.erase x, y * (y - x)⁻¹) * f.eval x = f.eval 0 := by
  have hinj : Set.InjOn id (s : Set F) := fun a _ b _ h => h
  have h0 := Lagrange.eq_interpolate (v := id) hinj (by simpa using hdeg)
  conv_rhs => rw [h0]
  rw [Lagrange.interpolate_apply, Polynomial.eval_finset_sum]
  refine Finset.sum_congr rfl (fun x hx => ?_)
  rw [Polynomial.eval_mul, Polynomial.eval_C, mul_comm]
  congr 1
  unfold Lagrange.basis
  rw [Polynomial.eval_prod]
  refine Finset.prod_congr rfl (fun y hy => ?_)
  unfold Lagrange.basisDivisor
  simp only [Polynomial.eval_mul, Polynomial.eval_C, Polynomial.eval_sub,
    Polynomial.eval_X, id]
  rw [zero_sub, ← neg_sub y x, inv_neg]
  ring

open Polynomial in
theorem sum_lagrange0Val_eval (xs : List F) (hnd : xs.Nodup) (f : F[X])
    (hdeg : f.degree < (xs.length : WithBot ℕ)) :
    (xs.map (fun x => lagrange0Val xs x * f.eval x)).sum = f.eval 0 := by
  rw [← List.sum_toFinset _ hnd]
  have hcard : xs.toFinset.card = xs.length := List.toFinset_card_of_nodup hnd
  rw [← key_sum xs.toFinset f (by rw [hcard]; exact hdeg)]
  refine Finset.sum_congr rfl (fun x hx => ?_)
  rw [lagrange0Val_eq_prod_erase xs hnd]

end LagrangeAlgebra

section InterpolateEval

variable {F : Type} [Field F] [DecidableEq F]

open Polynomial in
/-- Interpolation in the exponent at external indices `idx`: given exactly
`t+1` samples `(i, f(xᵢ)·G)` with `xᵢ = into_fr_plus_1 i` pairwise distinct
and `f` of degree below `t+1`, the routine reconstructs `f(0)·G`.  The
dlog `g` of the generator is arbitrary, so the statement covers G₁ and G₂
alike. -/
theorem interpolate_map_eval (t : Nat) (idx : List Int) (f : F[X]) (g : F)
    (hlen : idx.length = t + 1)
    (hnd : (idx.map (fun i => (into_fr_plus_1 i : F))).Nodup)
    (hdeg : f.degree < ((t + 1 : Nat) : WithBot ℕ)) :
    interpolate (t + 1) (idx.map (fun i => (i, f.eval (into_fr_plus_1 i) * g)))
      = .ok (f.eval 0 * g) := by
  have hsamp :
      (idx.map (fun i => ((i : Int), f.eval (into_fr_plus_1 i) * g))).map
        (fun p => ((into_fr_plus_1 p.1 : F), p.2))
      = idx.map (fun i => ((into_fr_plus_1 i : F), f.eval (into_fr_plus_1 i) * g)) := by
    rw [List.map_map]
    rfl
  have hlen' :
      (idx.map (fun i => ((into_fr_plus_1 i : F), f.eval (into_fr_plus_1 i) * g))).length
        = t + 1 := by
    rw [List.length_map, hlen]
  have hfst :
      (idx.map (fun i => ((into_fr_plus_1 i : F), f.eval (into_fr_plus_1 i) * g))).map
        Prod.fst = idx.map (fun i => (into_fr_plus_1 i : F)) := by
    rw [List.map_map]
    rfl
  simp only [interpolate, hsamp, hlen', lt_irrefl, if_false]
  rw [List.take_of_length_le (le_of_eq hlen')]
  rw [interpolateGo_ok _ _ [] 0 (by rw [List.nil_append, hfst]; exact hnd)]
  rw [hfst, List.map_map]
  have hmap :
      idx.map ((fun p : F × F =>
          lagrange0Val (idx.map (fun i => (into_fr_plus_1 i : F))) p.1 * p.2) ∘
          (fun i => ((into_fr_plus_1 i : F), f.eval (into_fr_plus_1 i) * g)))
      = (idx.map (fun i => (into_fr_plus_1 i : F))).map
          (fun x => (lagrange0Val (idx.map (fun i => (into_fr_plus_1 i : F))) x
            * f.eval x) * g) := by
    rw [List.map_map]
    refine List.map_congr_left (fun i _ => ?_)
    simp [Function.comp, mul_assoc]
  rw [hmap, List.sum_map_mul_right,
    sum_lagrange0Val_eval _ hnd f (by rw [List.length_map, hlen]; exact hdeg),
    zero_add]

omit [DecidableEq F] in
open Polynomial in
theorem evalPoly_eq_toPoly_eval (coeff : List F) (x : F) :
    evalPoly coeff x = (toPoly coeff).eval x := by
  induction coeff with
  | nil => simp [evalPoly, toPoly]
  | cons c l ih =>
    simp only [evalPoly, toPoly, List.foldr_cons] at ih ⊢
    rw [Polynomial.eval_add, Polynomial.eval_C, Polynomial.eval_mul,
      Polynomial.eval_X, ← ih]
    ring

omit [DecidableEq F] in
open Polynomial in
theorem toPoly_degree_lt (coeff : List F) :
    (toPoly coeff).degree < (coeff.length : WithBot ℕ) := by
  induction coeff with
  | nil => simp [toPoly]
  | cons c l ih =>
    simp only [toPoly, List.foldr_cons, List.length_cons] at ih ⊢
    refine lt_of_le_of_lt (Polynomial.degree_add_le _ _) (max_lt ?_ ?_)
    · refine lt_of_le_of_lt Polynomial.degree_C_le ?_
      exact_mod_cast WithBot.coe_lt_coe.mpr (Nat.succ_pos l.length)
    · refine lt_of_le_of_lt (Polynomial.degree_mul_le _ _) ?_
      rw [Polynomial.degree_X]
      have : ((l.length + 1 : Nat) : WithBot ℕ) = 1 + (l.length : WithBot ℕ) := by
        push_cast
        ring
      rw [this]
      exact WithBot.add_lt_add_left (by simp) ih

end InterpolateEval

section ParityLemmas

theorem foldr_xor_init (l : List Bool) (b : Bool) :
    l.foldr Bool.xor b = (l.foldr Bool.xor false).xor b := by
  induction l with
  | nil => simp
  | cons a l ih => simp [List.foldr_cons, ih, Bool.xor_assoc]

theorem xorBits_append (l1 l2 : List Bool) :
    xorBits (l1 ++ l2) = (xorBits l1).xor (xorBits l2) := by
  rw [xorBits, List.foldr_append, foldr_xor_init]
  rfl

theorem xorBits_zipWith :
    ∀ (l1 l2 : List Bool), l1.length = l2.length →
      xorBits (List.zipWith Bool.xor l1 l2) = (xorBits l1).xor (xorBits l2)
  | [], [], _ => rfl
  | [], _ :: _, h => by simp at h
  | _ :: _, [], h => by simp at h
  | a :: l1, b :: l2, h => by
    simp only [List.zipWith_cons_cons, xorBits, List.foldr_cons]
    rw [show (List.zipWith Bool.xor l1 l2).foldr Bool.xor false
        = xorBits (List.zipWith Bool.xor l1 l2) from rfl,
      xorBits_zipWith l1 l2 (by simpa using h)]
    unfold xorBits
    generalize l1.foldr Bool.xor false = p
    generalize l2.foldr Bool.xor false = q
    cases a <;> cases b <;> cases p <;> cases q <;> rfl

theorem bitsOfByte_xor (x y : Nat) :
    bitsOfByte (x ^^^ y) = List.zipWith Bool.xor (bitsOfByte x) (bitsOfByte y) := by
  have key : ∀ js : List Nat,
      js.map (fun j => (x ^^^ y).testBit j)
        = List.zipWith Bool.xor (js.map (fun j => x.testBit j))
            (js.map (fun j => y.testBit j)) := by
    intro js
    induction js with
    | nil => rfl
    | cons j js ih => simp [ih, Nat.testBit_xor]
  exact key (List.range 8)

theorem xorBits_bitsOfByte_xor (x y : Nat) :
    xorBits (bitsOfByte (x ^^^ y))
      = (xorBits (bitsOfByte x)).xor (xorBits (bitsOfByte y)) := by
  rw [bitsOfByte_xor, xorBits_zipWith]
  simp [bitsOfByte]

theorem bitParity_cons (b : Nat) (bs : List Nat) :
    bitParity (b :: bs) = (xorBits (bitsOfByte b)).xor (bitParity bs) := by
  simp only [bitParity, allBits, List.map_cons, List.flatten_cons]
  rw [xorBits_append]

theorem xorBits_foldl_xor :
    ∀ (bytes : List Nat) (a : Nat),
      xorBits (bitsOfByte (bytes.foldl Nat.xor a))
        = (xorBits (bitsOfByte a)).xor (bitParity bytes)
  | [], a => by simp [bitParity, allBits, xorBits]
  | b :: bs, a => by
    simp only [List.foldl_cons]
    rw [show Nat.xor a b = a ^^^ b from rfl, xorBits_foldl_xor bs (a ^^^ b),
      xorBits_bitsOfByte_xor, bitParity_cons, Bool.xor_assoc]

theorem xorBits_eq_count_parity (bs : List Bool) :
    xorBits bs = decide (bs.count true % 2 = 1) := by
  induction bs with
  | nil => rfl
  | cons a bs ih =>
    have hx : xorBits (a :: bs) = a.xor (xorBits bs) := rfl
    cases a
    · simpa [List.count_cons, hx] using ih
    · rw [hx, ih]
      simp only [List.count_cons, if_pos rfl]
      rcases Nat.mod_two_eq_zero_or_one (bs.count true) with h | h <;>
        simp [Nat.add_mod, h]

end ParityLemmas

section ByteLemmas

theorem xor_vec_length (x y : List Nat) :
    (xor_vec x y).length = min x.length y.length := by
  simp [xor_vec]

variable {F : Type} [Field F] [DecidableEq F]

omit [Field F] [DecidableEq F] in
theorem hash_bytes_length (ds : F → Nat → Nat) (g : F) (n : Nat) :
    (hash_bytes ds g n).length = n := by
  simp [hash_bytes]

theorem xor_vec_self_cancel :
    ∀ (x y : List Nat), x.length = y.length → xor_vec x (xor_vec x y) = y
  | [], [], _ => rfl
  | [], _ :: _, h => by simp at h
  | _ :: _, [], h => by simp at h
  | a :: x, b :: y, h => by
    simp only [xor_vec, List.zip_cons_cons, List.map_cons]
    congr 1
    · rw [← Nat.xor_assoc, Nat.xor_self, Nat.zero_xor]
    · exact xor_vec_self_cancel x y (by simpa using h)

omit [DecidableEq F] in
theorem evalPoly_zero (coeff : List F) : evalPoly coeff 0 = coeff.getD 0 0 := by
  cases coeff with
  | nil => rfl
  | cons c l => simp [evalPoly]

theorem interpolate_isOk (t : Nat) (items : List (Int × F))
    (hlen : t ≤ items.length)
    (hnd : ((items.take t).map (fun p => (into_fr_plus_1 p.1 : F))).Nodup) :
    ∃ v, interpolate t items = .ok v := by
  unfold interpolate
  have hlen' : ¬ ((items.map fun p => ((into_fr_plus_1 p.1 : F), p.2)).length < t) := by
    simpa using not_lt.mpr (by simpa using hlen)
  simp only [hlen', if_false]
  have hchosen :
      ((items.map fun p => ((into_fr_plus_1 p.1 : F), p.2)).take t).map Prod.fst
        = (items.take t).map (fun p => (into_fr_plus_1 p.1 : F)) := by
    rw [← List.map_take, List.map_map]
    rfl
  refine ⟨_, interpolateGo_ok _ _ [] 0 ?_⟩
  rw [List.nil_append, hchosen]
  exact hnd

end ByteLemmas

section Claims

/-- C1: for every secret key `sk` and every message `msg`, verifying the
signature produced by `sk` over `msg` against the matching public key succeeds:
`sign(sk, msg) = sk·H(msg)` satisfies the pairing equation
`e(pk, H(msg)) = e(G₁, sig)` checked by `PublicKey::verify`. -/
theorem C1_sign_then_verify {F : Type} [Field F] [DecidableEq F]
    (HG2 : List Nat → F) (sk : F) (msg : List Nat) :
    pk_verify HG2 (public_key sk) (sk_sign HG2 sk msg) msg = true := by
  simp only [pk_verify, public_key, sk_sign, pairing, beq_iff_eq]
  ring

theorem C1_witness :
    pk_verify (fun _ => (2 : ZMod 5)) (public_key 3)
      (sk_sign (fun _ => (2 : ZMod 5)) 3 [1, 7]) [1, 7] = true :=
  C1_sign_then_verify (fun _ => (2 : ZMod 5)) 3 [1, 7]

/-- C3: for every secret key `sk` and byte string `msg`, the ciphertext
`encrypt(public_key(sk), msg)` (for any encryption randomness `r`)
verifies, and `decrypt(sk, ct)` recovers exactly the original bytes. -/
theorem C3_encrypt_verify_decrypt {F : Type} [Field F] [DecidableEq F]
    (ds : F → Nat → Nat) (Hgg : F → List Nat → F) (sk r : F) (msg : List Nat) :
    ((encrypt ds Hgg (public_key sk) msg r).verify Hgg = true)
    ∧ sk_decrypt ds Hgg sk (encrypt ds Hgg (public_key sk) msg r) = some msg := by
  have hver : (encrypt ds Hgg (public_key sk) msg r).verify Hgg = true := by
    simp only [encrypt, CiphertextM.verify, pairing, beq_iff_eq]
    ring
  refine ⟨hver, ?_⟩
  rw [sk_decrypt, hver]
  simp only [Bool.not_true, Bool.false_eq_true, if_false]
  have hu : (encrypt ds Hgg (public_key sk) msg r).u * sk = public_key sk * r := by
    simp only [encrypt, public_key]
    ring
  have hv : (encrypt ds Hgg (public_key sk) msg r).v
      = xor_vec (hash_bytes ds (public_key sk * r) msg.length) msg := rfl
  have hvlen : (encrypt ds Hgg (public_key sk) msg r).v.length = msg.length := by
    rw [hv, xor_vec_length, hash_bytes_length, min_self]
  rw [hu, hvlen, hv, xor_vec_self_cancel _ _ (hash_bytes_length ds _ _)]

theorem C3_witness :
    ((encrypt (fun _ _ => 1) (fun _ _ => (2 : ZMod 5)) (public_key 3) [9, 200] 4).verify
        (fun _ _ => (2 : ZMod 5)) = true)
    ∧ sk_decrypt (fun _ _ => 1) (fun _ _ => (2 : ZMod 5)) 3
        (encrypt (fun _ _ => 1) (fun _ _ => (2 : ZMod 5)) (public_key 3) [9, 200] 4)
      = some [9, 200] :=
  C3_encrypt_verify_decrypt (fun _ _ => 1) (fun _ _ => (2 : ZMod 5)) 3 4 [9, 200]

/-- C6: `SecretKey::decrypt` returns `None` exactly when the ciphertext
fails its validity check and `Some` plaintext otherwise, and
`SecretKeyShare::decrypt_share` behaves the same: an invalid ciphertext is
an absent result, not an error (both functions are pure). -/
theorem C6_decrypt_none_iff_invalid {F : Type} [Field F] [DecidableEq F]
    (ds : F → Nat → Nat) (Hgg : F → List Nat → F) (sk sks : F)
    (ct : CiphertextM F) :
    (sk_decrypt ds Hgg sk ct = none ↔ ct.verify Hgg = false)
    ∧ ((sk_decrypt ds Hgg sk ct).isSome = true ↔ ct.verify Hgg = true)
    ∧ (decrypt_share Hgg sks ct = none ↔ ct.verify Hgg = false)
    ∧ ((decrypt_share Hgg sks ct).isSome = true ↔ ct.verify Hgg = true) := by
  cases h : ct.verify Hgg <;> simp [sk_decrypt, decrypt_share, h]

theorem C6_witness :
    (sk_decrypt (fun _ _ => 1) (fun _ _ => (2 : ZMod 5)) 3 ⟨1, [5], 2⟩ = none ↔
      CiphertextM.verify (fun _ _ => (2 : ZMod 5)) ⟨1, [5], 2⟩ = false)
    ∧ ((sk_decrypt (fun _ _ => 1) (fun _ _ => (2 : ZMod 5)) 3 ⟨1, [5], 2⟩).isSome = true ↔
      CiphertextM.verify (fun _ _ => (2 : ZMod 5)) ⟨1, [5], 2⟩ = true)
    ∧ (decrypt_share (fun _ _ => (2 : ZMod 5)) 4 ⟨1, [5], 2⟩ = none ↔
      CiphertextM.verify (fun _ _ => (2 : ZMod 5)) ⟨1, [5], 2⟩ = false)
    ∧ ((decrypt_share (fun _ _ => (2 : ZMod 5)) 4 ⟨1, [5], 2⟩).isSome = true ↔
      CiphertextM.verify (fun _ _ => (2 : ZMod 5)) ⟨1, [5], 2⟩ = true) :=
  C6_decrypt_none_iff_invalid (fun _ _ => 1) (fun _ _ => (2 : ZMod 5)) 3 4 ⟨1, [5], 2⟩

/-- C7: the `.expect("indices are different")` panic branch of
`interpolate` is unreachable: the inner loop only inverts `x0 - x` for
`x0 ≠ x`, so the inversion always succeeds and `interpolate` is total,
never panicking on any input list. -/
theorem C7_interpolate_never_panics {F : Type} [Field F] [DecidableEq F]
    (t : Nat) (items : List (Int × F)) :
    interpolate t items ≠ .error .expectFailed := by
  unfold interpolate
  simp only [List.length_map]
  by_cases h : items.length < t
  · simp [h]
  · simp only [h, if_false]
    exact interpolateGo_ne_panic _ _ _ _

theorem C7_witness :
    interpolate 2 [((0 : Int), (1 : ZMod 5)), (0, 2)] ≠ .error .expectFailed :=
  C7_interpolate_never_panics 2 [((0 : Int), (1 : ZMod 5)), (0, 2)]

/-- C8: `Signature::parity` — the low bit of the popcount of the xor-fold
of the bytes of the encoding — equals the xor of all individual bits of the
encoding: the two-step form and the direct all-bits-parity form agree on
every byte string. -/
theorem C8_parity_eq_bitParity (bytes : List Nat) :
    parity bytes = bitParity bytes := by
  have h1 : parity bytes = xorBits (bitsOfByte (bytes.foldl Nat.xor 0)) := by
    rw [xorBits_eq_count_parity]
    unfold parity count_ones
    rcases Nat.mod_two_eq_zero_or_one
      ((bitsOfByte (bytes.foldl Nat.xor 0)).count true) with h | h <;> simp [h]
  rw [h1, xorBits_foldl_xor bytes 0]
  have h0 : xorBits (bitsOfByte 0) = false := by decide
  rw [h0, Bool.false_xor]

theorem C8_witness : parity [183, 98, 5] = bitParity [183, 98, 5] :=
  C8_parity_eq_bitParity [183, 98, 5]

/-- C10: for messages longer than 64 bytes, `hash_g1_g2` first replaces
the message by its 32-byte SHA3-256 digest, which the short-message path
then uses verbatim: `hash_g1_g2(g, msg) = hash_g1_g2(g, sha3_256(msg))`,
a deterministic collision between two distinct message inputs. -/
theorem C10_hash_g1_g2_collision {F : Type} [Field F] [DecidableEq F]
    (sha3 : List Nat → List Nat) (hg2 : List Nat → F) (cp : F → List Nat)
    (h32 : ∀ m, (sha3 m).length = 32) (g : F) (msg : List Nat)
    (hlong : 64 < msg.length) :
    hash_g1_g2 sha3 hg2 cp g msg = hash_g1_g2 sha3 hg2 cp g (sha3 msg) := by
  unfold hash_g1_g2
  rw [if_pos hlong, if_neg (by rw [h32]; norm_num)]

theorem C10_witness :
    hash_g1_g2 (fun _ => List.replicate 32 7) (fun m => (m.length : ZMod 5))
        (fun _ => [1]) 2 (List.replicate 65 0)
      = hash_g1_g2 (fun _ => List.replicate 32 7) (fun m => (m.length : ZMod 5))
        (fun _ => [1]) 2 ((fun _ => List.replicate 32 7) (List.replicate 65 0)) :=
  C10_hash_g1_g2_collision (fun _ => List.replicate 32 7)
    (fun m => (m.length : ZMod 5)) (fun _ => [1])
    (fun m => List.length_replicate 32 7) 2 (List.replicate 65 0)
    (by simp)

open Polynomial in
/-- C4: Lagrange interpolation in the exponent is correct: for every
polynomial `f` of degree at most `t` and `t+1` samples `(i, f(xᵢ)·G)`
whose mapped scalars `xᵢ = into_fr_plus_1 i` are distinct and non-zero,
`interpolate` returns exactly `f(0)·G`; the generator dlog `g` is
arbitrary, covering G₁ and G₂ alike. -/
theorem C4_interpolate_reconstructs {F : Type} [Field F] [DecidableEq F]
    (f : F[X]) (g : F) (t : Nat) (idx : List Int)
    (hlen : idx.length = t + 1)
    (hnd : (idx.map (fun i => (into_fr_plus_1 i : F))).Nodup)
    (_hnz : ∀ x ∈ idx.map (fun i => (into_fr_plus_1 i : F)), x ≠ 0)
    (hdeg : f.natDegree ≤ t) :
    interpolate (t + 1) (idx.map (fun i => (i, f.eval (into_fr_plus_1 i) * g)))
      = .ok (f.eval 0 * g) := by
  refine interpolate_map_eval t idx f g hlen hnd ?_
  have h1 : f.degree ≤ (t : WithBot ℕ) :=
    le_trans Polynomial.degree_le_natDegree (by exact_mod_cast hdeg)
  have h2 : (t : WithBot ℕ) < ((t + 1 : Nat) : WithBot ℕ) := by
    exact_mod_cast Nat.lt_succ_self t
  exact lt_of_le_of_lt h1 h2

theorem C4_witness :
    interpolate 2 ([0, 1].map (fun i => ((i : Int),
        (Polynomial.X : Polynomial (ZMod 5)).eval (into_fr_plus_1 i) * 3)))
      = .ok ((Polynomial.X : Polynomial (ZMod 5)).eval 0 * 3) :=
  C4_interpolate_reconstructs Polynomial.X 3 1 [0, 1] rfl (by decide) (by decide)
    (by simp [Polynomial.natDegree_X])

/-- C5: `interpolate` (hence `combine_signatures` and threshold `decrypt`)
fails with `NotEnoughShares` on fewer than `t+1` samples; with at least
`t+1` samples it depends only on the first `t+1`, and fails with
`DuplicateEntry` exactly when two of those chosen samples have equal
mapped indices; both errors propagate unmodified through the callers. -/
theorem C5_interpolate_error_behaviour {F : Type} [Field F] [DecidableEq F]
    (t : Nat) (items : List (Int × F)) (ds : F → Nat → Nat) :
    (items.length < t + 1 →
      interpolate (t + 1) items = .error .notEnoughShares)
    ∧ (t + 1 ≤ items.length →
        interpolate (t + 1) items = interpolate (t + 1) (items.take (t + 1))
        ∧ (interpolate (t + 1) items = .error .duplicateEntry ↔
            ¬ ((items.take (t + 1)).map
                (fun p => (into_fr_plus_1 p.1 : F))).Nodup))
    ∧ (∀ (p : PublicKeySetM F) (e : CryptoError),
        (p.combine_signatures items = .error e ↔
          interpolate (p.threshold + 1) items = .error e)
        ∧ ∀ ct : CiphertextM F,
          (p.decrypt ds items ct = .error e ↔
            interpolate (p.threshold + 1) items = .error e)) := by
  refine ⟨?_, ?_, ?_⟩
  · intro h
    unfold interpolate
    simp [List.length_map, h]
  · intro h
    have h1 : ¬ items.length < t + 1 := not_lt.mpr h
    have h2 : ¬ (items.take (t + 1)).length < t + 1 := by
      rw [List.length_take]
      omega
    constructor
    · unfold interpolate
      simp only [List.length_map, h1, if_false, h2]
      rw [← List.map_take, ← List.map_take, List.take_take, min_self]
    · unfold interpolate
      simp only [List.length_map, h1, if_false]
      rw [interpolateGo_dup_iff _ _ [] 0 List.nodup_nil, List.nil_append,
        ← List.map_take, List.map_map]
      rfl
  · refine fun p e => ⟨Iff.rfl, fun ct => ?_⟩
    cases hx : interpolate (p.threshold + 1) items <;>
      simp [PublicKeySetM.decrypt, hx, Except.map]

theorem C5_witness :
    interpolate 2 [((0 : Int), (1 : ZMod 5)), (0, 2), (1, 3)]
      = .error .duplicateEntry :=
  ((C5_interpolate_error_behaviour 1 [((0 : Int), (1 : ZMod 5)), (0, 2), (1, 3)]
    (fun _ _ => 0)).2.1 (by norm_num)).2.mpr (by decide)

/-- C9: `PublicKeySet::decrypt` performs no ciphertext validity check: for
every ciphertext, valid or not, given at least `threshold+1` shares whose
chosen mapped indices are distinct, it returns `Ok` of a byte vector of
length `|V|` (interpolating the shares and xoring the key stream against
`V` unconditionally); it never reports an absent plaintext. -/
theorem C9_decrypt_unconditional {F : Type} [Field F] [DecidableEq F]
    (ds : F → Nat → Nat) (p : PublicKeySetM F) (shares : List (Int × F))
    (ct : CiphertextM F)
    (hlen : p.threshold + 1 ≤ shares.length)
    (hnd : ((shares.take (p.threshold + 1)).map
        (fun q => (into_fr_plus_1 q.1 : F))).Nodup) :
    ∃ pt : List Nat, p.decrypt ds shares ct = .ok pt
      ∧ pt.length = ct.v.length := by
  obtain ⟨v, hv⟩ := interpolate_isOk (p.threshold + 1) shares hlen hnd
  refine ⟨xor_vec (hash_bytes ds v ct.v.length) ct.v, ?_, ?_⟩
  · rw [PublicKeySetM.decrypt, hv]
    rfl
  · rw [xor_vec_length, hash_bytes_length, min_self]

theorem C9_witness :
    ∃ pt : List Nat,
      PublicKeySetM.decrypt (fun _ _ => 0) (⟨[1, 2]⟩ : PublicKeySetM (ZMod 5))
        [((0 : Int), 1), (1, 2)] ⟨0, [9, 9, 9], 0⟩ = .ok pt
      ∧ pt.length = 3 :=
  C9_decrypt_unconditional (fun _ _ => 0) ⟨[1, 2]⟩ [((0 : Int), 1), (1, 2)]
    ⟨0, [9, 9, 9], 0⟩ (by decide) (by decide)

/-- C2: for a `SecretKeySet` built from a degree-`t` polynomial, any two
disjoint sets of `t+1` share indices, each signing with its secret key
share, combine under `PublicKeySet::combine_signatures` to the identical
signature, equal to the one the master secret `f(0)` would produce; that
signature verifies under the master public key. -/
theorem C2_threshold_signature_consistency {F : Type} [Field F] [DecidableEq F]
    (coeff : List F) (t : Nat) (hco : coeff.length = t + 1)
    (HG2 : List Nat → F) (msg : List Nat) (A B : List Int)
    (hAlen : A.length = t + 1) (hBlen : B.length = t + 1)
    (hA : (A.map (fun i => (into_fr_plus_1 i : F))).Nodup)
    (hB : (B.map (fun i => (into_fr_plus_1 i : F))).Nodup)
    (_hdisj : ∀ i ∈ A, i ∉ B) :
    ((SecretKeySetM.mk coeff).public_keys.combine_signatures
        (A.map (fun i =>
          (i, sk_sign HG2 ((SecretKeySetM.mk coeff).secret_key_share i) msg)))
      = .ok (sk_sign HG2 (SecretKeySetM.mk coeff).secret_key msg))
    ∧ ((SecretKeySetM.mk coeff).public_keys.combine_signatures
        (B.map (fun i =>
          (i, sk_sign HG2 ((SecretKeySetM.mk coeff).secret_key_share i) msg)))
      = .ok (sk_sign HG2 (SecretKeySetM.mk coeff).secret_key msg))
    ∧ pk_verify HG2 ((SecretKeySetM.mk coeff).public_keys.public_key)
        (sk_sign HG2 (SecretKeySetM.mk coeff).secret_key msg) msg = true := by
  have hthr : (SecretKeySetM.mk coeff).public_keys.threshold = t := by
    simp [SecretKeySetM.public_keys, PublicKeySetM.threshold, hco]
  have key : ∀ (L : List Int), L.length = t + 1 →
      (L.map (fun i => (into_fr_plus_1 i : F))).Nodup →
      (SecretKeySetM.mk coeff).public_keys.combine_signatures
          (L.map (fun i =>
            (i, sk_sign HG2 ((SecretKeySetM.mk coeff).secret_key_share i) msg)))
        = .ok (sk_sign HG2 (SecretKeySetM.mk coeff).secret_key msg) := by
    intro L hL hLnd
    have hmap : L.map (fun i =>
          ((i : Int),
            sk_sign HG2 ((SecretKeySetM.mk coeff).secret_key_share i) msg))
        = L.map (fun i =>
          ((i : Int), (toPoly coeff).eval (into_fr_plus_1 i) * HG2 msg)) := by
      refine List.map_congr_left (fun i _ => ?_)
      simp only [sk_sign, SecretKeySetM.secret_key_share, evalPoly_eq_toPoly_eval]
      rw [mul_comm]
    rw [PublicKeySetM.combine_signatures, hthr, hmap,
      interpolate_map_eval t L (toPoly coeff) (HG2 msg) hL hLnd
        (by rw [← hco]; exact toPoly_degree_lt coeff)]
    congr 1
    rw [sk_sign, SecretKeySetM.secret_key, evalPoly_eq_toPoly_eval, mul_comm]
  refine ⟨key A hAlen hA, key B hBlen hB, ?_⟩
  simp only [pk_verify, pairing, sk_sign, beq_iff_eq, PublicKeySetM.public_key,
    SecretKeySetM.public_keys, SecretKeySetM.secret_key]
  rw [evalPoly_zero]
  ring

theorem C2_witness :
    (SecretKeySetM.mk [(1 : ZMod 5), 2]).public_keys.combine_signatures
        ([0, 1].map (fun i =>
          ((i : Int), sk_sign (fun _ => 3)
            ((SecretKeySetM.mk [(1 : ZMod 5), 2]).secret_key_share i) [4])))
      = .ok (sk_sign (fun _ => 3)
          (SecretKeySetM.mk [(1 : ZMod 5), 2]).secret_key [4]) :=
  (C2_threshold_signature_consistency [(1 : ZMod 5), 2] 1 rfl (fun _ => 3) [4]
    [0, 1] [2, 3] rfl rfl (by decide) (by decide) (by decide)).1

end Claims
